import Mathlib

/-!
Shallow embedding of the schema-inference and aggregation core of the
student-results dashboard (source: src/src/App.jsx).  JavaScript numbers
are modelled as rationals; a numeric coercion that yields NaN or an
infinite value is modelled as Option.none, which is faithful because
every use site in the source immediately filters with Number.isFinite.
-/

namespace ResultApp

/-- ASCII whitespace recognised by the JavaScript regex class \s and by
String.prototype.trim on the inputs this program handles. -/
def jsIsWS (c : Char) : Bool :=
  c = ' ' || c = '\t' || c = '\n' || c = '\r' || c = '\x0b' || c = '\x0c'

def jsIsDigit (c : Char) : Bool := '0' ≤ c && c ≤ '9'

def jsIsLowerAZ (c : Char) : Bool := 'a' ≤ c && c ≤ 'z'

def jsIsUpperAZ (c : Char) : Bool := 'A' ≤ c && c ≤ 'Z'

/-- ASCII lowercasing, matching String.prototype.toLowerCase on the
ASCII field names this program handles. -/
def jsToLowerChar (c : Char) : Char :=
  if jsIsUpperAZ c then Char.ofNat (c.toNat + 32) else c

def jsToLower (s : String) : String := String.mk (s.toList.map jsToLowerChar)

def jsToUpperChar (c : Char) : Char :=
  if jsIsLowerAZ c then Char.ofNat (c.toNat - 32) else c

/-- String.prototype.trim. -/
def jsTrim (s : String) : String :=
  String.mk (((s.toList.dropWhile jsIsWS).reverse.dropWhile jsIsWS).reverse)

/-- Decides whether needle occurs as a contiguous substring of the
haystack, as String.prototype.includes does. -/
def isSubListOf (needle : List Char) : List Char → Bool
  | [] => needle.isEmpty
  | h :: t => needle.isPrefixOf (h :: t) || isSubListOf needle t

/-- s.includes(sub) on strings. -/
def containsSub (s sub : String) : Bool := isSubListOf sub.toList s.toList

def digitVal (c : Char) : ℕ := c.toNat - '0'.toNat

def digitsToNat (ds : List Char) : ℕ := ds.foldl (fun a c => 10 * a + digitVal c) 0

/-- Exponent part of a JavaScript numeric literal: e or E, an optional
sign, then at least one digit.  Returns (negative?, magnitude); a
malformed exponent is simply not consumed, matching the
longest-valid-prefix rule of parseFloat. -/
def parseExpPart (cs : List Char) : Option (Bool × ℕ) :=
  match cs with
  | 'e' :: rest | 'E' :: rest =>
    let signAndRest : Bool × List Char :=
      match rest with
      | '+' :: r => (false, r)
      | '-' :: r => (true, r)
      | r => (false, r)
    let ds := signAndRest.2.takeWhile jsIsDigit
    if ds.isEmpty then none else some (signAndRest.1, digitsToNat ds)
  | _ => none

def applyExp (q : ℚ) : Option (Bool × ℕ) → ℚ
  | none => q
  | some (false, e) => q * ((10 ^ e : ℕ) : ℚ)
  | some (true, e) => q / ((10 ^ e : ℕ) : ℚ)

/-- Unsigned part of parseFloat: either Infinity (modelled as none,
since every caller filters non-finite results) or a decimal literal
digits [. digits] [exponent], where at least one digit must be present
before or after the dot. -/
def parseUnsigned (cs : List Char) : Option ℚ :=
  if "Infinity".toList.isPrefixOf cs then none
  else
    let ds := cs.takeWhile jsIsDigit
    let rest := cs.drop ds.length
    match rest with
    | '.' :: r2 =>
      let fs := r2.takeWhile jsIsDigit
      if ds.isEmpty && fs.isEmpty then none
      else
        let mant : ℚ := (digitsToNat ds : ℚ) + (digitsToNat fs : ℚ) / ((10 ^ fs.length : ℕ) : ℚ)
        some (applyExp mant (parseExpPart (r2.drop fs.length)))
    | _ =>
      if ds.isEmpty then none
      else some (applyExp (digitsToNat ds : ℚ) (parseExpPart rest))

/-- JavaScript parseFloat: skip leading whitespace, optional sign, then
the longest valid decimal-literal prefix.  none models NaN and the
infinities, which every caller discards via Number.isFinite. -/
def parseFloat (s : String) : Option ℚ :=
  let cs := s.toList.dropWhile jsIsWS
  match cs with
  | '+' :: rest => parseUnsigned rest
  | '-' :: rest => (parseUnsigned rest).map (fun q => -q)
  | rest => parseUnsigned rest

/-- A cell value: a (finite) JavaScript number or a string.  An absent
cell (key missing from the row object, value undefined) is modelled by
Option.none at the lookup. -/
inductive Value where
  | num (q : ℚ)
  | str (s : String)
deriving DecidableEq

/-- A row object: field names in insertion order with their values. -/
abbrev Row := List (String × Value)

def rowGet (r : Row) (k : String) : Option Value :=
  (r.find? (fun p => p.1 == k)).map (fun p => p.2)

def rowKeys (r : Row) : List String := r.map (fun p => p.1)

/-- typeof raw === number ? raw : parseFloat(raw), for a present value. -/
def coerceVal : Value → Option ℚ
  | Value.num q => some q
  | Value.str s => parseFloat s

/-- The same coercion applied to a possibly-absent cell; parseFloat of
undefined is NaN, hence none. -/
def coerceNumOpt : Option Value → Option ℚ
  | none => none
  | some v => coerceVal v

/-- detectTextFields: keys of the first row whose value is a string with
non-whitespace content. -/
def detectTextFields (rows : List Row) : List String :=
  match rows with
  | [] => []
  | sample :: _ =>
    (rowKeys sample).filter (fun key =>
      match rowGet sample key with
      | some (Value.str s) => jsTrim s ≠ ""
      | _ => false)

/-- detectNumericFields: keys of the first row whose value coerces to a
finite number. -/
def detectNumericFields (rows : List Row) : List String :=
  match rows with
  | [] => []
  | sample :: _ =>
    (rowKeys sample).filter (fun key => (coerceNumOpt (rowGet sample key)).isSome)

/-- One pass of the global regex replace([a-z])([A-Z]) with "1 2": a
space is inserted between a lowercase letter and an uppercase letter
immediately following it; scanning resumes after the matched pair. -/
def camelSplit : List Char → List Char
  | a :: b :: t =>
    if jsIsLowerAZ a && jsIsUpperAZ b then a :: ' ' :: b :: camelSplit t
    else a :: camelSplit (b :: t)
  | l => l

/-- Global replace of every maximal whitespace run by a single space.
The flag records whether the previous character was part of a run. -/
def collapseWSAux : Bool → List Char → List Char
  | _, [] => []
  | inWS, c :: t =>
    if jsIsWS c then
      if inWS then collapseWSAux true t else ' ' :: collapseWSAux true t
    else c :: collapseWSAux false t

def collapseWS (l : List Char) : List Char := collapseWSAux false l

def jsIsWordChar (c : Char) : Bool :=
  jsIsLowerAZ c || jsIsUpperAZ c || jsIsDigit c || c = '_'

/-- Uppercase every word character that starts a word (the regex b-w
global replace).  The flag records whether the previous character was a
word character. -/
def upWordStarts : Bool → List Char → List Char
  | _, [] => []
  | prevW, c :: t =>
    (if !prevW && jsIsWordChar c then jsToUpperChar c else c) :: upWordStarts (jsIsWordChar c) t

/-- prettyKey: underscores to spaces, camelCase boundary spacing,
whitespace collapse, title-casing of word starts, trim. -/
def prettyKey (key : String) : String :=
  jsTrim (String.mk (upWordStarts false (collapseWS (camelSplit
    (key.toList.map (fun c => if c = '_' then ' ' else c))))))

/-- Attempt to match the parenthesized-number regex at this exact
position: an opening parenthesis, one or more digits, optionally a dot
followed by one or more digits, then a closing parenthesis.  Returns
the first capture group. -/
def matchParenAt : List Char → Option (List Char)
  | '(' :: cs =>
    let ds := cs.takeWhile jsIsDigit
    if ds.isEmpty then none
    else
      let rest := cs.drop ds.length
      match rest with
      | ')' :: _ => some ds
      | '.' :: r2 =>
        let fs := r2.takeWhile jsIsDigit
        if fs.isEmpty then none
        else
          match r2.drop fs.length with
          | ')' :: _ => some (ds ++ '.' :: fs)
          | _ => none
      | _ => none
  | _ => none

/-- Leftmost match of the parenthesized-number regex. -/
def findParen : List Char → Option (List Char)
  | [] => none
  | c :: cs =>
    match matchParenAt (c :: cs) with
    | some m => some m
    | none => findParen cs

/-- Attempt to match the trailing-number regex digits [. digits]
whitespace-to-end at this exact position.  Shorter digit runs never
rescue a failed match, so greedy take-while is exact. -/
def matchTrailAt (cs : List Char) : Option (List Char) :=
  let ds := cs.takeWhile jsIsDigit
  if ds.isEmpty then none
  else
    let rest := cs.drop ds.length
    match rest with
    | '.' :: r2 =>
      let fs := r2.takeWhile jsIsDigit
      if !fs.isEmpty && (r2.drop fs.length).all jsIsWS then some (ds ++ '.' :: fs)
      else none
    | _ => if rest.all jsIsWS then some ds else none

/-- Leftmost match of the trailing-number regex. -/
def findTrail : List Char → Option (List Char)
  | [] => none
  | c :: cs =>
    match matchTrailAt (c :: cs) with
    | some m => some m
    | none => findTrail cs

/-- Credit parsing from a header: the parenthesized match wins,
otherwise the trailing match, otherwise none. -/
def parseCredit (key : String) : Option ℚ :=
  match findParen key.toList with
  | some ds => parseFloat (String.mk ds)
  | none =>
    match findTrail key.toList with
    | some ds => parseFloat (String.mk ds)
    | none => none

def idLikeTokens : List String := ["roll", "reg", "registration", "enrol", "enrollment", "id"]

def aggTokens : List String :=
  ["total", "aggregate", "overall", "gpa", "cgpa", "sgpa", "percentage", "percent", "score"]

/-- Column scan of extractSubjectFields: walk the rows; an empty or
absent cell is skipped; a present value that fails to coerce to a
finite number aborts the whole column (none); otherwise the column has
at least one numeric value.  some b means the scan completed with
hasNumeric = b. -/
def scanColumn : List Row → String → Bool → Option Bool
  | [], _, has => some has
  | r :: rs, key, has =>
    match rowGet r key with
    | none => scanColumn rs key has
    | some v =>
      if v = Value.str "" then scanColumn rs key has
      else
        match coerceVal v with
        | none => none
        | some _ => scanColumn rs key true

structure FieldDescriptor where
  key : String
  label : String
  credit : Option ℚ
deriving DecidableEq

/-- extractSubjectFields: first-row keys, in order, dropping text-like
fields, identifier-like names, aggregate-like names, columns with a
non-numeric value, and all-empty columns; survivors get a label and an
optional credit. -/
def extractSubjectFields (rows : List Row) (textFields : List String) : List FieldDescriptor :=
  match rows with
  | [] => []
  | r0 :: _ =>
    let textSet := textFields.map jsToLower
    (rowKeys r0).filterMap (fun key =>
      let lower := jsToLower key
      if textSet.contains lower
          || idLikeTokens.any (fun t => containsSub lower t)
          || aggTokens.any (fun t => containsSub lower t) then none
      else
        match scanColumn rows key false with
        | none => none
        | some false => none
        | some true => some ⟨key, prettyKey key, parseCredit key⟩)

/-- The finite coerced values of a field, in row order.  This exact
expression appears verbatim both in buildHistogramData (values) and in
the summary computation (numericValues). -/
def collectNumericValues (rows : List Row) (field : String) : List ℚ :=
  rows.filterMap (fun r => coerceNumOpt (rowGet r field))

/-- Minimum of a list of numbers; Math.min over a spread argument list,
which is only ever applied to a non-empty list. -/
def minList : List ℚ → ℚ
  | [] => 0
  | x :: xs => xs.foldl min x

def maxList : List ℚ → ℚ
  | [] => 0
  | x :: xs => xs.foldl max x

/-- Math.round. -/
def jsRound (q : ℚ) : ℤ := ⌊q + 1 / 2⌋

/-- The bin index before clamping: floor((v - min) / (max - min) * bins). -/
def rawBinIndex (mn mx : ℚ) (bins : ℕ) (v : ℚ) : ℤ :=
  ⌊(v - mn) / (mx - mn) * (bins : ℚ)⌋

/-- The clamped bin index, exactly as the source clamps: first pull
indices at or above the bin count down to the last bin, then pull
negative indices up to zero. -/
def binIndexZ (mn mx : ℚ) (bins : ℕ) (v : ℚ) : ℤ :=
  let i := rawBinIndex mn mx bins v
  let i1 := if (bins : ℤ) ≤ i then (bins : ℤ) - 1 else i
  if i1 < 0 then 0 else i1

def binIndex (mn mx : ℚ) (bins : ℕ) (v : ℚ) : ℕ := (binIndexZ mn mx bins v).toNat

structure HistogramBin where
  range : String
  count : ℕ
deriving DecidableEq

/-- In-place update of a list element, as data[idx].count += 1 does on
an array; the proofs establish that the index is always in range. -/
def modifyAt : List HistogramBin → ℕ → (HistogramBin → HistogramBin) → List HistogramBin
  | [], _, _ => []
  | x :: xs, 0, f => f x :: xs
  | x :: xs, n + 1, f => x :: modifyAt xs n f

/-- Total of the per-bin counts. -/
def sumCounts (l : List HistogramBin) : ℕ := (l.map (fun b => b.count)).sum

/-- The rounded start-end label of bin i; the last bin ends exactly at
max. -/
def binLabel (mn mx : ℚ) (bins i : ℕ) : String :=
  toString (jsRound (mn + (i : ℚ) * ((mx - mn) / (bins : ℚ)))) ++ " – " ++
    toString (jsRound (if i = bins - 1 then mx
      else mn + ((i : ℚ) + 1) * ((mx - mn) / (bins : ℚ))))

/-- The zero-count bins with their labels. -/
def initialBins (mn mx : ℚ) (bins : ℕ) : List HistogramBin :=
  (List.range bins).map (fun i => { range := binLabel mn mx bins i, count := 0 })

/-- One accumulation step: data[idx].count += 1 at the clamped index. -/
def histStep (mn mx : ℚ) (bins : ℕ) (d : List HistogramBin) (v : ℚ) : List HistogramBin :=
  modifyAt d (binIndex mn mx bins v) (fun b => { b with count := b.count + 1 })

/-- buildHistogramData.  The Number.isFinite checks on min and max are
identically true in the rational model and are therefore dropped. -/
def buildHistogramData (rows : List Row) (field : String) (bins : ℕ) : List HistogramBin :=
  if rows = [] ∨ field = "" then []
  else
    let values := collectNumericValues rows field
    if values = [] then []
    else
      let mn := minList values
      let mx := maxList values
      if mn = mx then []
      else values.foldl (histStep mn mx bins) (initialBins mn mx bins)

/-- Number(num.toFixed(2)): decimal rounding to two places, ties away
from zero (toFixed rounds the magnitude and reattaches the sign). -/
def round2 (q : ℚ) : ℚ :=
  if q < 0 then -((⌊-q * 100 + 1 / 2⌋ : ℚ) / 100) else (⌊q * 100 + 1 / 2⌋ : ℚ) / 100

/-- A bin object of the grouped-count view, exactly as the source
builds it: ONE JavaScript object holding the bucket value under the
property name gpa and the per-metric counters under the metric names
as further properties of the SAME object, so a metric literally named
gpa collides with the bucket value.  Own enumerable properties in
insertion order; property reads are modelled as own-property reads,
which is exact for every property name that is not a member of
Object.prototype (reads of names the object does not own fall back to
the prototype in JavaScript; the theorems only quantify over metric
names outside that set). -/
abbrev BinObj := List (String × ℚ)

/-- Own-property read. -/
def getProp : BinObj → String → Option ℚ
  | [], _ => none
  | (k, x) :: rest, m => if k = m then some x else getProp rest m

/-- Property write: update in place, or append a new own property. -/
def setProp : BinObj → String → ℚ → BinObj
  | [], m, x => [(m, x)]
  | (k, c) :: rest, m, x =>
    if k = m then (k, x) :: rest else (k, c) :: setProp rest m x

/-- bin[metricKey] = (bin[metricKey] or 0) + 1: an absent property
reads as undefined, hence falsy, hence 0; a numeric property passes
through (0 stays 0 either way); the property is then overwritten with
the successor.  When metricKey is the literal string gpa, this
overwrites the bucket value itself. -/
def bumpProp (o : BinObj) (m : String) : BinObj :=
  setProp o m ((getProp o m).getD 0 + 1)

/-- The sort key of the output rows: the gpa property of the object,
always an own property (created with the bucket value and possibly
overwritten by a metric named gpa). -/
def gpaOf (o : BinObj) : ℚ := (getProp o "gpa").getD 0

/-- One entry of the Map: the key is the decimal string of the rounded
value, modelled by the rational itself since distinct rationals have
distinct decimal strings; the value is the bin object, created as the
one-property object gpa: rounded. -/
structure GBin where
  key : ℚ
  bin : BinObj
deriving DecidableEq

/-- Fetch-or-create the Map entry for this rounded value (Map
insertion order), then run bin[metricKey] = (bin[metricKey] or 0) + 1
on its object.  The Map key is never touched again, even when the
object's gpa property is overwritten. -/
def addVal : List GBin → String → ℚ → List GBin
  | [], m, v => [⟨v, bumpProp [("gpa", v)] m⟩]
  | b :: bs, m, v =>
    if b.key = v then { b with bin := bumpProp b.bin m } :: bs
    else b :: addVal bs m v

/-- Insertion into a list sorted ascending by the gpa property,
placing the inserted row before equal keys: together with sortBins
this is a stable sort, as the source comparator sort is. -/
def insertBin (b : BinObj) : List BinObj → List BinObj
  | [] => [b]
  | c :: cs => if gpaOf b ≤ gpaOf c then b :: c :: cs else c :: insertBin b cs

def sortBins : List BinObj → List BinObj
  | [] => []
  | b :: bs => insertBin b (sortBins bs)

/-- buildGpaCountData: the Map values in insertion order, sorted by
their gpa property. -/
def buildGpaCountData (rows : List Row) (metrics : List String) : List BinObj :=
  if rows = [] ∨ metrics = [] then []
  else
    sortBins ((metrics.foldl
      (fun acc m =>
        rows.foldl
          (fun acc r =>
            match coerceNumOpt (rowGet r m) with
            | none => acc
            | some q => addVal acc m (round2 q))
          acc)
      []).map (fun e => e.bin))

/-- The own property names of Object.prototype: for these metric names
the or-zero read would hit an inherited function before the first
write, so the numeric model does not cover them. -/
def objectProtoKeys : List String :=
  ["constructor", "hasOwnProperty", "isPrototypeOf", "propertyIsEnumerable",
   "toLocaleString", "toString", "valueOf", "__proto__", "__defineGetter__",
   "__defineSetter__", "__lookupGetter__", "__lookupSetter__"]

structure SummaryStats where
  totalStudents : ℕ
  avgScore : Option ℚ
  maxScore : Option ℚ
  minScore : Option ℚ
deriving DecidableEq

/-- The summary computation, parameterised by the designated primary
numeric field (none models null).  The falsiness test on the field also
treats the empty string as no designation. -/
def summarize (rows : List Row) (field : Option String) : SummaryStats :=
  match field with
  | none => ⟨rows.length, none, none, none⟩
  | some f =>
    if rows.length = 0 ∨ f = "" then ⟨rows.length, none, none, none⟩
    else
      let numericValues := collectNumericValues rows f
      if numericValues = [] then ⟨rows.length, none, none, none⟩
      else
        ⟨rows.length, some (numericValues.sum / (numericValues.length : ℚ)),
          some (maxList numericValues), some (minList numericValues)⟩

def idCandidates : List String :=
  ["roll", "reg", "registration", "enrol", "enrollment", "admission", "id"]

/-- The identifier search order: text fields first, then the remaining
first-row keys. -/
def idSearchOrder (rows : List Row) : List String :=
  let textFields := detectTextFields rows
  let keys := match rows with
    | [] => []
    | r :: _ => rowKeys r
  textFields ++ keys.filter (fun k => !textFields.contains k)

/-- The first candidate token contained in some field name. -/
def firstIdCandidate (rows : List Row) : Option String :=
  idCandidates.find? (fun cand =>
    (idSearchOrder rows).any (fun k => containsSub (jsToLower k) cand))

/-- idField: the first field in search order containing the first
matching candidate token. -/
def idField (rows : List Row) : Option String :=
  match firstIdCandidate rows with
  | none => none
  | some cand => (idSearchOrder rows).find? (fun k => containsSub (jsToLower k) cand)

def preferredNumericTokens : List String :=
  ["cg", "cgpa", "gpa", "total", "aggregate", "overall", "sgpa", "percentage", "percent", "score"]

def prefMatch (f : String) : Bool :=
  preferredNumericTokens.any (fun p => containsSub (jsToLower f) p)

/-- primaryNumericField: none when there are no numeric fields at all;
otherwise the first numeric field containing a preferred token, else
the first subject-field key, else the first numeric field. -/
def primaryNumericField (rows : List Row) : Option String :=
  let numericFields := detectNumericFields rows
  if numericFields = [] then none
  else
    match numericFields.find? prefMatch with
    | some f => some f
    | none =>
      match extractSubjectFields rows (detectTextFields rows) with
      | d :: _ => some d.key
      | [] => numericFields.head?

/-! Specification vocabulary for the grouped-count view. -/

/-- The rounded finite coerced values of a metric, one per contributing
row, in row order. -/
def roundedVals (rows : List Row) (m : String) : List ℚ :=
  rows.filterMap (fun r => (coerceNumOpt (rowGet r m)).map round2)

/-- Occurrences of a value in a value list. -/
def countQ (l : List ℚ) (v : ℚ) : ℕ := (l.filter (fun x => x = v)).length

/-- Number of rows contributing the bucket value v under metric m. -/
def metricRowCount (rows : List Row) (m : String) (v : ℚ) : ℕ :=
  countQ (roundedVals rows m) v

/-- All (metric, rounded value) contributions, in the processing order
of the nested loops: metric-major, row-minor. -/
def contribPairs (rows : List Row) (metrics : List String) : List (String × ℚ) :=
  metrics.flatMap (fun m => (roundedVals rows m).map (fun v => (m, v)))

/-- Occurrences of a (metric, value) pair in a contribution list. -/
def pairCount (C : List (String × ℚ)) (m : String) (v : ℚ) : ℕ :=
  (C.filter (fun p => p.1 = m ∧ p.2 = v)).length

/-- Bookkeeping invariant of the bucket map under contributions whose
metric names are never the literal string gpa: Map keys are pairwise
distinct, an entry exists exactly for the contributed values, every
object still owns its bucket value under gpa, and each other property
is the contribution count of its pair, absent rather than zero. -/
def GroupInv (entries : List GBin) (C : List (String × ℚ)) : Prop :=
  (entries.map GBin.key).Nodup
  ∧ (∀ v : ℚ, v ∈ entries.map GBin.key ↔ ∃ m : String, (m, v) ∈ C)
  ∧ ∀ e ∈ entries,
      getProp e.bin "gpa" = some e.key
      ∧ ∀ m : String, ¬m = "gpa" →
          getProp e.bin m =
            (if pairCount C m e.key = 0 then none
             else some ((pairCount C m e.key : ℚ)))

/-! Concrete datasets used by the claim theorems. -/

/-- Two rows whose Math column mixes a numeric string with a
non-numeric string; all three first-row values are non-empty strings. -/
def exMixedRows : List Row :=
  [[("Name", Value.str "A"), ("Roll", Value.str "1"), ("Math", Value.str "80")],
   [("Name", Value.str "B"), ("Roll", Value.str "2"), ("Math", Value.str "N/A")]]

/-- A Math column that is empty in the first row and numeric in the
second: not a numeric field, yet a subject field. -/
def exEmptyFirstRow : List Row :=
  [[("Math", Value.str "")], [("Math", Value.str "80")]]

/-- A single column whose header carries a trailing zero. -/
def exChemZero : List Row := [[("Chemistry 0", Value.num 75)]]

/-- A single column whose header is the empty string. -/
def exEmptyKey : List Row := [[("", Value.num 5)]]

/-- A one-value dataset: a degenerate histogram domain. -/
def exSingle : List Row := [[("A", Value.num 5)]]

/-- A two-value dataset with distinct values. -/
def exPair : List Row := [[("A", Value.num 1)], [("A", Value.num 2)]]

/-- A numeric-string field: both a text field and a numeric field. -/
def exStrNum : List Row := [[("A", Value.str "3.5")]]

/-- Two CGPA rows sharing one rounded value. -/
def exCgpaRows : List Row :=
  [[("CGPA", Value.num 3)], [("CGPA", Value.num 3)]]

/-- Two rows of a column literally named gpa, sharing one rounded
value: the metric name collides with the bucket property. -/
def exGpaRows : List Row :=
  [[("gpa", Value.num (7/2))], [("gpa", Value.num (7/2))]]

/-- A dataset with a preferred-token numeric field. -/
def exCgpaSingle : List Row := [[("CGPA", Value.num 3)]]

/-- A name and a registration column. -/
def exNameReg : List Row :=
  [[("Name", Value.str "Alice"), ("Reg", Value.str "24")]]

end ResultApp

set_option maxRecDepth 10000

namespace ResultApp

/-! Helper lemmas about the subject extractor. -/

theorem takeWhile_head_sat {p : Char → Bool} :
    ∀ {cs : List Char} {d : Char} {t : List Char}, cs.takeWhile p = d :: t → p d = true := by
  intro cs
  induction cs with
  | nil => intro d t h; simp [List.takeWhile] at h
  | cons c cs ih =>
    intro d t h
    rw [List.takeWhile_cons] at h
    by_cases hc : p c = true
    · rw [if_pos hc] at h
      exact (List.cons.injEq .. ▸ h).1 ▸ hc
    · rw [if_neg hc] at h
      exact absurd h (List.noConfusion)

/-- Every descriptor the extractor emits was built from its own key:
the key survived the text-set test, the column scan succeeded with at
least one numeric value, and label and credit are the derived ones. -/
theorem extract_spec {rows : List Row} {tf : List String} {d : FieldDescriptor}
    (h : d ∈ extractSubjectFields rows tf) :
    (tf.map jsToLower).contains (jsToLower d.key) = false ∧
    scanColumn rows d.key false = some true ∧
    d.label = prettyKey d.key ∧ d.credit = parseCredit d.key := by
  match rows with
  | [] => simp [extractSubjectFields] at h
  | r0 :: rs =>
    rw [extractSubjectFields] at h
    rw [List.mem_filterMap] at h
    obtain ⟨k, _, hf⟩ := h
    by_cases hc : ((tf.map jsToLower).contains (jsToLower k)
        || idLikeTokens.any (fun t => containsSub (jsToLower k) t)
        || aggTokens.any (fun t => containsSub (jsToLower k) t)) = true
    · rw [if_pos hc] at hf
      exact absurd hf (Option.noConfusion)
    · rw [if_neg hc] at hf
      have hc2 := hc
      simp only [Bool.or_eq_true, not_or, Bool.not_eq_true] at hc2
      cases hscan : scanColumn (r0 :: rs) k false with
      | none => rw [hscan] at hf; exact absurd hf (Option.noConfusion)
      | some b =>
        cases b with
        | false => rw [hscan] at hf; exact absurd hf (Option.noConfusion)
        | true =>
          rw [hscan] at hf
          have hd : d = ⟨k, prettyKey k, parseCredit k⟩ := (Option.some.injEq .. ▸ hf).symm
          subst hd
          exact ⟨hc2.1.1, hscan, rfl, rfl⟩

/-- A present, non-empty, non-coercible cell aborts the column scan. -/
theorem scanColumn_bad {k : String} :
    ∀ (rows : List Row) (has : Bool),
      (∃ r ∈ rows, rowGet r k ≠ none ∧ rowGet r k ≠ some (Value.str "") ∧
        coerceNumOpt (rowGet r k) = none) →
      scanColumn rows k has = none := by
  intro rows
  induction rows with
  | nil => intro has h; obtain ⟨r, hr, _⟩ := h; exact absurd hr (List.not_mem_nil r)
  | cons r rs ih =>
    intro has h
    obtain ⟨r2, hr2, hbad⟩ := h
    rcases List.mem_cons.mp hr2 with he | hm
    · subst he
      cases hget : rowGet r2 k with
      | none => exact absurd hget hbad.1
      | some v =>
        have hne : ¬v = Value.str "" := by
          intro hv; exact hbad.2.1 (hv ▸ hget)
        have hcv : coerceVal v = none := by
          have h2 := hbad.2.2; rw [hget] at h2; exact h2
        simp only [scanColumn, hget, if_neg hne, hcv]
    · cases hget : rowGet r k with
      | none =>
        simp only [scanColumn, hget]
        exact ih has ⟨r2, hm, hbad⟩
      | some v =>
        by_cases hv : v = Value.str ""
        · simp only [scanColumn, hget, if_pos hv]
          exact ih has ⟨r2, hm, hbad⟩
        · cases hcv : coerceVal v with
          | none => simp only [scanColumn, hget, if_neg hv, hcv]
          | some q =>
            simp only [scanColumn, hget, if_neg hv, hcv]
            exact ih true ⟨r2, hm, hbad⟩

/-- If no cell of the column coerces to a number, the scan never
reports hasNumeric. -/
theorem scanColumn_allnone {k : String} :
    ∀ (rows : List Row), (∀ r ∈ rows, coerceNumOpt (rowGet r k) = none) →
      ∀ has, scanColumn rows k has = none ∨ scanColumn rows k has = some has := by
  intro rows
  induction rows with
  | nil => intro _ has; right; rfl
  | cons r rs ih =>
    intro h has
    have hr := h r (List.mem_cons_self r rs)
    have hrest : ∀ r2 ∈ rs, coerceNumOpt (rowGet r2 k) = none :=
      fun r2 hm => h r2 (List.mem_cons_of_mem r hm)
    cases hget : rowGet r k with
    | none =>
      simp only [scanColumn, hget]
      exact ih hrest has
    | some v =>
      by_cases hv : v = Value.str ""
      · simp only [scanColumn, hget, if_pos hv]
        exact ih hrest has
      · have hcv : coerceVal v = none := by rw [hget] at hr; exact hr
        simp only [scanColumn, hget, if_neg hv, hcv]
        left; trivial

/-! Helper lemmas about numeric parsing, used for credit bounds. -/

theorem applyExp_nonneg {q : ℚ} (h : 0 ≤ q) (eo : Option (Bool × ℕ)) : 0 ≤ applyExp q eo := by
  match eo with
  | none => exact h
  | some (false, e) =>
    exact mul_nonneg h (by positivity)
  | some (true, e) =>
    exact div_nonneg h (by positivity)

theorem parseUnsigned_nonneg {cs : List Char} {q : ℚ} (h : parseUnsigned cs = some q) :
    0 ≤ q := by
  rw [parseUnsigned] at h
  split at h
  · exact absurd h (Option.noConfusion)
  · dsimp only at h
    split at h
    · rename_i r2 _
      split at h
      · exact absurd h (Option.noConfusion)
      · have hq := (Option.some.injEq .. ▸ h)
        subst hq
        exact applyExp_nonneg (by positivity) _
    · split at h
      · exact absurd h (Option.noConfusion)
      · have hq := (Option.some.injEq .. ▸ h)
        subst hq
        exact applyExp_nonneg (by positivity) _

theorem jsIsDigit_not_ws {c : Char} (h : jsIsDigit c = true) : jsIsWS c = false := by
  cases hw : jsIsWS c with
  | false => rfl
  | true =>
    exfalso
    simp only [jsIsWS, Bool.or_eq_true, decide_eq_true_eq] at hw
    rcases hw with (((((h1 | h1) | h1) | h1) | h1) | h1) <;> subst h1 <;> simp [jsIsDigit] at h

theorem jsIsDigit_ne_plus {c : Char} (h : jsIsDigit c = true) : c ≠ '+' := by
  intro he; subst he; simp [jsIsDigit] at h

theorem jsIsDigit_ne_minus {c : Char} (h : jsIsDigit c = true) : c ≠ '-' := by
  intro he; subst he; simp [jsIsDigit] at h

theorem parseFloat_digit_nonneg {c : Char} {t : List Char} {q : ℚ}
    (hd : jsIsDigit c = true) (h : parseFloat (String.mk (c :: t)) = some q) : 0 ≤ q := by
  rw [parseFloat] at h
  have hl : (String.mk (c :: t)).toList = c :: t := rfl
  rw [hl, List.dropWhile_cons, jsIsDigit_not_ws hd] at h
  simp only [Bool.false_eq_true, if_false] at h
  split at h
  · rename_i heq
    exact absurd (List.cons.injEq .. ▸ heq).1 (jsIsDigit_ne_plus hd)
  · rename_i heq
    exact absurd (List.cons.injEq .. ▸ heq).1 (jsIsDigit_ne_minus hd)
  · exact parseUnsigned_nonneg h

theorem matchParenAt_head {cs l : List Char} (h : matchParenAt cs = some l) :
    ∃ d t, l = d :: t ∧ jsIsDigit d = true := by
  unfold matchParenAt at h
  split at h
  · rename_i cs1
    dsimp only at h
    split at h
    · exact absurd h (Option.noConfusion)
    · rename_i hne
      cases hds : cs1.takeWhile jsIsDigit with
      | nil => rw [hds] at hne; exact absurd rfl hne
      | cons d dt =>
        have hdig := takeWhile_head_sat hds
        rw [hds] at h
        split at h
        · exact ⟨d, dt, (Option.some.inj h).symm, hdig⟩
        · split at h
          · exact absurd h (Option.noConfusion)
          · split at h
            · exact ⟨d, _, (Option.some.inj h).symm, hdig⟩
            · exact absurd h (Option.noConfusion)
        · exact absurd h (Option.noConfusion)
  · exact absurd h (Option.noConfusion)

theorem matchTrailAt_head {cs l : List Char} (h : matchTrailAt cs = some l) :
    ∃ d t, l = d :: t ∧ jsIsDigit d = true := by
  rw [matchTrailAt] at h
  dsimp only at h
  split at h
  · exact absurd h (Option.noConfusion)
  · rename_i hne
    cases hds : cs.takeWhile jsIsDigit with
    | nil => rw [hds] at hne; exact absurd rfl hne
    | cons d dt =>
      have hdig := takeWhile_head_sat hds
      rw [hds] at h
      split at h
      · split at h
        · exact ⟨d, _, (Option.some.inj h).symm, hdig⟩
        · exact absurd h (Option.noConfusion)
      · split at h
        · exact ⟨d, dt, (Option.some.inj h).symm, hdig⟩
        · exact absurd h (Option.noConfusion)

theorem findParen_head {l : List Char} :
    ∀ {cs : List Char}, findParen cs = some l → ∃ d t, l = d :: t ∧ jsIsDigit d = true := by
  intro cs
  induction cs with
  | nil => intro h; exact absurd h (Option.noConfusion)
  | cons c cs ih =>
    intro h
    rw [findParen] at h
    split at h
    · rename_i m hm
      exact matchParenAt_head (hm.trans (congrArg some (Option.some.inj h)))
    · exact ih h

theorem findTrail_head {l : List Char} :
    ∀ {cs : List Char}, findTrail cs = some l → ∃ d t, l = d :: t ∧ jsIsDigit d = true := by
  intro cs
  induction cs with
  | nil => intro h; exact absurd h (Option.noConfusion)
  | cons c cs ih =>
    intro h
    rw [findTrail] at h
    split at h
    · rename_i m hm
      exact matchTrailAt_head (hm.trans (congrArg some (Option.some.inj h)))
    · exact ih h

theorem parseCredit_nonneg {k : String} {c : ℚ} (h : parseCredit k = some c) : 0 ≤ c := by
  rw [parseCredit] at h
  split at h
  · rename_i ds hds
    obtain ⟨d, t, hl, hdig⟩ := findParen_head hds
    rw [hl] at h
    exact parseFloat_digit_nonneg hdig h
  · split at h
    · rename_i ds hds
      obtain ⟨d, t, hl, hdig⟩ := findTrail_head hds
      rw [hl] at h
      exact parseFloat_digit_nonneg hdig h
    · exact absurd h (Option.noConfusion)

/-! Claim theorems. -/

/-- C4: a field is excluded from the subject descriptors as soon as one
row holds a non-empty, non-absent value that fails to coerce to a
finite number, and also when no row contributes any numeric value; in
the two-row Name/Roll/Math example with values 80 and N/A the Math
column yields no subject descriptor. -/
theorem C4_single_bad_value_disqualifies :
    (∀ (rows : List Row) (k : String),
      ((∃ r ∈ rows, rowGet r k ≠ none ∧ rowGet r k ≠ some (Value.str "") ∧
          coerceNumOpt (rowGet r k) = none) →
        (extractSubjectFields rows (detectTextFields rows)).filter (fun d => d.key == k) = [])
      ∧ ((∀ r ∈ rows, coerceNumOpt (rowGet r k) = none) →
        (extractSubjectFields rows (detectTextFields rows)).filter (fun d => d.key == k) = []))
    ∧ extractSubjectFields exMixedRows (detectTextFields exMixedRows) = [] := by
  constructor
  · intro rows k
    constructor
    · intro hbad
      rw [List.filter_eq_nil_iff]
      intro d hd
      intro hk
      have hkey : d.key = k := by simpa using hk
      have hscan := (extract_spec hd).2.1
      rw [hkey] at hscan
      rw [scanColumn_bad rows false hbad] at hscan
      exact Option.noConfusion hscan
    · intro hall
      rw [List.filter_eq_nil_iff]
      intro d hd hk
      have hkey : d.key = k := by simpa using hk
      have hscan := (extract_spec hd).2.1
      rw [hkey] at hscan
      rcases scanColumn_allnone rows hall false with hn | hn <;> rw [hn] at hscan
      · exact Option.noConfusion hscan
      · exact Bool.noConfusion (Option.some.inj hscan)
  · with_unfolding_all decide

/-- C4 witness: in the mixed Math column, the N/A row is a concrete
non-empty, non-coercible value, and the Math field indeed produces no
descriptor. -/
theorem C4_single_bad_value_disqualifies_witness :
    (extractSubjectFields exMixedRows (detectTextFields exMixedRows)).filter
      (fun d => d.key == "Math") = [] :=
  (C4_single_bad_value_disqualifies.1 exMixedRows "Math").1
    ⟨[("Name", Value.str "B"), ("Roll", Value.str "2"), ("Math", Value.str "N/A")],
      by with_unfolding_all decide, by with_unfolding_all decide⟩

/-- C5: descriptor credits come from the header text; a parenthesized
number always wins over a trailing number, credit is none when neither
pattern matches, and on the two sample headers the credits are 3.0
and 3. -/
theorem C5_credit_precedence :
    (∀ (rows : List Row) (textFields : List String) (d : FieldDescriptor),
        d ∈ extractSubjectFields rows textFields → d.credit = parseCredit d.key)
    ∧ (∀ (k : String) (ds : List Char), findParen k.toList = some ds →
        parseCredit k = parseFloat (String.mk ds))
    ∧ (∀ k : String, findParen k.toList = none → findTrail k.toList = none →
        parseCredit k = none)
    ∧ parseCredit "Physics (3.0) Lab 2" = some 3
    ∧ parseCredit "Chemistry 3" = some 3 := by
  refine ⟨?_, ?_, ?_, ?_, ?_⟩
  · intro rows tf d hd
    exact (extract_spec hd).2.2.2
  · intro k ds hds
    rw [parseCredit, hds]
  · intro k hp ht
    rw [parseCredit, hp, ht]
  · with_unfolding_all decide
  · with_unfolding_all decide

/-- C5 witness: the parenthesized capture of the first sample header is
3.0 and the precedence rule routes the credit through it. -/
theorem C5_credit_precedence_witness :
    parseCredit "Physics (3.0) Lab 2" = parseFloat (String.mk ['3', '.', '0']) :=
  C5_credit_precedence.2.1 "Physics (3.0) Lab 2" ['3', '.', '0'] (by with_unfolding_all decide)

/-- C6 counterexample: the header Chemistry 0 survives as a subject
field and carries credit 0, which is not positive, refuting the claim
that every carried credit is positive. -/
theorem C6_positive_credit_counterexample :
    ∃ d ∈ extractSubjectFields exChemZero (detectTextFields exChemZero),
      ∃ c, d.credit = some c ∧ ¬0 < c := by
  refine ⟨⟨"Chemistry 0", "Chemistry 0", some 0⟩, by with_unfolding_all decide, 0, rfl, ?_⟩
  exact lt_irrefl 0

/-- C6 amended: every credit carried by a subject descriptor is
nonnegative (the digit-only capture regexes cannot produce a sign, but
a trailing or parenthesized 0 produces credit 0). -/
theorem C6_credit_nonneg :
    ∀ (rows : List Row) (textFields : List String) (d : FieldDescriptor) (c : ℚ),
      d ∈ extractSubjectFields rows textFields → d.credit = some c → 0 ≤ c := by
  intro rows tf d c hd hc
  have := (extract_spec hd).2.2.2
  rw [this] at hc
  exact parseCredit_nonneg hc

/-- C6 witness: the Chemistry 0 descriptor instantiates the amended
bound with credit 0. -/
theorem C6_credit_nonneg_witness : (0 : ℚ) ≤ 0 :=
  C6_credit_nonneg exChemZero (detectTextFields exChemZero)
    ⟨"Chemistry 0", "Chemistry 0", some 0⟩ 0 (by with_unfolding_all decide) rfl

/-- C10: a non-whitespace numeric string in the first row puts a field
in both the text-field set and the numeric-field set, and every field
of the text-field set is excluded from the subject descriptors
regardless of its values in any row. -/
theorem C10_text_numeric_overlap :
    ("A" ∈ detectTextFields exStrNum ∧ "A" ∈ detectNumericFields exStrNum)
    ∧ ∀ (rows : List Row) (k : String), k ∈ detectTextFields rows →
        (extractSubjectFields rows (detectTextFields rows)).filter (fun d => d.key == k) = [] := by
  constructor
  · exact ⟨by with_unfolding_all decide, by with_unfolding_all decide⟩
  · intro rows k hk
    rw [List.filter_eq_nil_iff]
    intro d hd hdk
    have hkey : d.key = k := by simpa using hdk
    have hcontains := (extract_spec hd).1
    rw [hkey] at hcontains
    have hmem : jsToLower k ∈ (detectTextFields rows).map jsToLower :=
      List.mem_map_of_mem jsToLower hk
    have hnot : jsToLower k ∉ (detectTextFields rows).map jsToLower := by
      simpa using hcontains
    exact hnot hmem

/-- C10 witness: the numeric-string field A of the overlap dataset is a
text field and is excluded from the subject descriptors. -/
theorem C10_text_numeric_overlap_witness :
    (extractSubjectFields exStrNum (detectTextFields exStrNum)).filter
      (fun d => d.key == "A") = [] :=
  C10_text_numeric_overlap.2 exStrNum "A" (by with_unfolding_all decide)

/-! Generic first-match decomposition, used for the selection chains. -/

theorem find_some_split {α : Type} {p : α → Bool} :
    ∀ {l : List α} {a : α}, l.find? p = some a →
      p a = true ∧ ∃ l1 l2, l = l1 ++ a :: l2 ∧ ∀ x ∈ l1, p x = false := by
  intro l
  induction l with
  | nil => intro a h; exact absurd h (Option.noConfusion)
  | cons x xs ih =>
    intro a h
    cases hx : p x with
    | true =>
      rw [List.find?_cons_of_pos _ hx] at h
      have hax : x = a := Option.some.inj h
      subst hax
      exact ⟨hx, [], xs, rfl, by intro y hy; exact absurd hy (List.not_mem_nil y)⟩
    | false =>
      rw [List.find?_cons_of_neg _ (by simp [hx])] at h
      obtain ⟨hp, l1, l2, heq, hall⟩ := ih h
      refine ⟨hp, x :: l1, l2, by rw [heq]; rfl, ?_⟩
      intro y hy
      rcases List.mem_cons.mp hy with he | hm
      · exact he ▸ hx
      · exact hall y hm

/-! Minimum and maximum of a value list. -/

theorem foldl_min_le_init (xs : List ℚ) : ∀ a : ℚ, xs.foldl min a ≤ a := by
  induction xs with
  | nil => intro a; exact le_refl a
  | cons x xs ih =>
    intro a
    exact le_trans (ih (min a x)) (min_le_left a x)

theorem foldl_min_le_mem {v : ℚ} : ∀ (xs : List ℚ), v ∈ xs → ∀ a : ℚ, xs.foldl min a ≤ v := by
  intro xs
  induction xs with
  | nil => intro h; exact absurd h (List.not_mem_nil v)
  | cons x xs ih =>
    intro h a
    rcases List.mem_cons.mp h with he | hm
    · subst he
      exact le_trans (foldl_min_le_init xs (min a v)) (min_le_right a v)
    · exact ih hm (min a x)

theorem foldl_min_mem : ∀ (xs : List ℚ) (a : ℚ), xs.foldl min a = a ∨ xs.foldl min a ∈ xs := by
  intro xs
  induction xs with
  | nil => intro a; left; rfl
  | cons x xs ih =>
    intro a
    rcases ih (min a x) with h | h
    · rcases min_choice a x with hm | hm
      · left; rw [List.foldl_cons, h, hm]
      · right; rw [List.foldl_cons, h, hm]; exact List.mem_cons_self x xs
    · right
      rw [List.foldl_cons]
      exact List.mem_cons_of_mem x h

theorem minList_le {l : List ℚ} {v : ℚ} (h : v ∈ l) : minList l ≤ v := by
  match l with
  | [] => exact absurd h (List.not_mem_nil v)
  | x :: xs =>
    rcases List.mem_cons.mp h with he | hm
    · subst he; exact foldl_min_le_init xs v
    · exact foldl_min_le_mem xs hm x

theorem minList_mem {l : List ℚ} (h : l ≠ []) : minList l ∈ l := by
  match l with
  | [] => exact absurd rfl h
  | x :: xs =>
    rcases foldl_min_mem xs x with he | hm
    · rw [minList, he]; exact List.mem_cons_self x xs
    · rw [minList]; exact List.mem_cons_of_mem x hm

theorem foldl_max_le_init (xs : List ℚ) : ∀ a : ℚ, a ≤ xs.foldl max a := by
  induction xs with
  | nil => intro a; exact le_refl a
  | cons x xs ih =>
    intro a
    exact le_trans (le_max_left a x) (ih (max a x))

theorem foldl_max_le_mem {v : ℚ} : ∀ (xs : List ℚ), v ∈ xs → ∀ a : ℚ, v ≤ xs.foldl max a := by
  intro xs
  induction xs with
  | nil => intro h; exact absurd h (List.not_mem_nil v)
  | cons x xs ih =>
    intro h a
    rcases List.mem_cons.mp h with he | hm
    · subst he
      exact le_trans (le_max_right a v) (foldl_max_le_init xs (max a v))
    · exact ih hm (max a x)

theorem foldl_max_mem : ∀ (xs : List ℚ) (a : ℚ), xs.foldl max a = a ∨ xs.foldl max a ∈ xs := by
  intro xs
  induction xs with
  | nil => intro a; left; rfl
  | cons x xs ih =>
    intro a
    rcases ih (max a x) with h | h
    · rcases max_choice a x with hm | hm
      · left; rw [List.foldl_cons, h, hm]
      · right; rw [List.foldl_cons, h, hm]; exact List.mem_cons_self x xs
    · right
      rw [List.foldl_cons]
      exact List.mem_cons_of_mem x h

theorem le_maxList {l : List ℚ} {v : ℚ} (h : v ∈ l) : v ≤ maxList l := by
  match l with
  | [] => exact absurd h (List.not_mem_nil v)
  | x :: xs =>
    rcases List.mem_cons.mp h with he | hm
    · subst he; exact foldl_max_le_init xs v
    · exact foldl_max_le_mem xs hm x

theorem maxList_mem {l : List ℚ} (h : l ≠ []) : maxList l ∈ l := by
  match l with
  | [] => exact absurd rfl h
  | x :: xs =>
    rcases foldl_max_mem xs x with he | hm
    · rw [maxList, he]; exact List.mem_cons_self x xs
    · rw [maxList]; exact List.mem_cons_of_mem x hm

/-- C9: the identifier field is found by checking the candidate tokens
in order against the search order of text fields first then the
remaining first-row keys: the first candidate contained in some field
name selects the first field (in search order) containing it, and no
candidate matching anything means no identifier field. -/
theorem C9_idField_selection (rows : List Row) :
    (firstIdCandidate rows = none → idField rows = none)
    ∧ (firstIdCandidate rows = none ↔
        ∀ c ∈ idCandidates, ∀ k ∈ idSearchOrder rows, containsSub (jsToLower k) c = false)
    ∧ (∀ c, firstIdCandidate rows = some c →
        c ∈ idCandidates
        ∧ (∃ l1 l2, idCandidates = l1 ++ c :: l2 ∧
            ∀ c2 ∈ l1, ∀ k ∈ idSearchOrder rows, containsSub (jsToLower k) c2 = false)
        ∧ idField rows = (idSearchOrder rows).find? (fun k => containsSub (jsToLower k) c)
        ∧ ∃ k l1 l2, idField rows = some k ∧ idSearchOrder rows = l1 ++ k :: l2 ∧
            containsSub (jsToLower k) c = true ∧
            ∀ k2 ∈ l1, containsSub (jsToLower k2) c = false) := by
  refine ⟨?_, ?_, ?_⟩
  · intro h
    rw [idField, h]
  · rw [firstIdCandidate, List.find?_eq_none]
    constructor
    · intro h c hc k hk
      have h2 := h c hc
      rw [Bool.not_eq_true, List.any_eq_false] at h2
      simpa using h2 k hk
    · intro h c hc
      rw [Bool.not_eq_true, List.any_eq_false]
      intro k hk
      simp [h c hc k hk]
  · intro c hc
    have hfield : idField rows =
        (idSearchOrder rows).find? (fun k => containsSub (jsToLower k) c) := by
      rw [idField, hc]
    obtain ⟨hpc, l1, l2, heq, hall⟩ := find_some_split hc
    have hmemc : c ∈ idCandidates := by
      rw [heq]; exact List.mem_append_right l1 (List.mem_cons_self c l2)
    refine ⟨hmemc, ⟨l1, l2, heq, ?_⟩, hfield, ?_⟩
    · intro c2 hc2 k hk
      have h2 := hall c2 hc2
      rw [List.any_eq_false] at h2
      simpa using h2 k hk
    · rw [List.any_eq_true] at hpc
      obtain ⟨k0, hk0, hp0⟩ := hpc
      have hsome : ((idSearchOrder rows).find?
          (fun k => containsSub (jsToLower k) c)).isSome := by
        rw [List.find?_isSome]
        exact ⟨k0, hk0, hp0⟩
      obtain ⟨k, hk⟩ := Option.isSome_iff_exists.mp hsome
      obtain ⟨hpk, m1, m2, hmeq, hmall⟩ := find_some_split hk
      exact ⟨k, m1, m2, hfield.trans hk, hmeq, hpk, hmall⟩

/-- C9 witness: on the Name/Reg dataset the first matching candidate is
reg and the identifier field resolves to the first field containing
it. -/
theorem C9_idField_selection_witness :
    idField exNameReg =
      (idSearchOrder exNameReg).find? (fun k => containsSub (jsToLower k) "reg") :=
  ((C9_idField_selection exNameReg).2.2 "reg" (by with_unfolding_all decide)).2.2.1

/-- C1 counterexample: a Math column that is empty in row 1 and numeric
in row 2 yields a subject field but no numeric field, and the primary
numeric field is none rather than the first subject-field key. -/
theorem C1_no_numeric_counterexample :
    detectNumericFields exEmptyFirstRow = []
    ∧ (extractSubjectFields exEmptyFirstRow (detectTextFields exEmptyFirstRow)).map
        FieldDescriptor.key = ["Math"]
    ∧ primaryNumericField exEmptyFirstRow = none := by
  refine ⟨?_, ?_, ?_⟩ <;> with_unfolding_all decide

/-- C1 amended: when no numeric field exists the selection is none even
if subject fields exist; otherwise it is the first numeric field whose
lowercase name contains a preferred token, else the first subject-field
key when subject fields exist, else the first numeric field. -/
theorem C1_primary_numeric_selection (rows : List Row) :
    (detectNumericFields rows = [] → primaryNumericField rows = none)
    ∧ (∀ f, (detectNumericFields rows).find? prefMatch = some f →
        primaryNumericField rows = some f
        ∧ prefMatch f = true
        ∧ ∃ l1 l2, detectNumericFields rows = l1 ++ f :: l2 ∧ ∀ g ∈ l1, prefMatch g = false)
    ∧ (detectNumericFields rows ≠ [] → (detectNumericFields rows).find? prefMatch = none →
        (∀ d ds, extractSubjectFields rows (detectTextFields rows) = d :: ds →
            primaryNumericField rows = some d.key)
        ∧ (extractSubjectFields rows (detectTextFields rows) = [] →
            primaryNumericField rows = (detectNumericFields rows).head?)) := by
  refine ⟨?_, ?_, ?_⟩
  · intro h
    rw [primaryNumericField]
    simp only [h, if_true]
  · intro f hf
    obtain ⟨hpf, l1, l2, heq, hall⟩ := find_some_split hf
    have hne : detectNumericFields rows ≠ [] := by
      rw [heq]; exact List.append_ne_nil_of_right_ne_nil l1 (List.cons_ne_nil f l2)
    constructor
    · rw [primaryNumericField]
      simp only [if_neg hne, hf]
    · exact ⟨hpf, l1, l2, heq, hall⟩
  · intro hne hfind
    constructor
    · intro d ds hsub
      rw [primaryNumericField]
      simp only [if_neg hne, hfind, hsub]
    · intro hsub
      rw [primaryNumericField]
      simp only [if_neg hne, hfind, hsub]

/-- C1 witness: a CGPA column matches the preferred token list and is
selected as the primary numeric field. -/
theorem C1_primary_numeric_selection_witness :
    primaryNumericField exCgpaSingle = some "CGPA" :=
  ((C1_primary_numeric_selection exCgpaSingle).2.1 "CGPA" (by with_unfolding_all decide)).1

/-- C8 counterexample: a dataset whose only column is named by the
empty string designates that column as primary numeric field, and its
single value 5 is finite, yet the summary is fully degenerate because
the falsiness test treats the empty-string field name as no
designation. -/
theorem C8_empty_name_counterexample :
    primaryNumericField exEmptyKey = some ""
    ∧ collectNumericValues exEmptyKey "" = [5]
    ∧ summarize exEmptyKey (primaryNumericField exEmptyKey) = ⟨1, none, none, none⟩ := by
  refine ⟨?_, ?_, ?_⟩ <;> with_unfolding_all decide

/-- C8 amended: totalStudents is always the unfiltered row count; the
summary is degenerate when the dataset is empty, no field is
designated, or the designated field name is the empty string; otherwise
the three statistics are the mean, maximum and minimum of the finite
coerced values when any exist and none otherwise. -/
theorem C8_summary_statistics (rows : List Row) (field : Option String) :
    (summarize rows field).totalStudents = rows.length
    ∧ (rows = [] ∨ field = none ∨ field = some "" →
        summarize rows field = ⟨rows.length, none, none, none⟩)
    ∧ (∀ f, field = some f → f ≠ "" → rows ≠ [] →
        (collectNumericValues rows f = [] →
          summarize rows field = ⟨rows.length, none, none, none⟩)
        ∧ (collectNumericValues rows f ≠ [] →
          (summarize rows field).avgScore =
            some ((collectNumericValues rows f).sum / ((collectNumericValues rows f).length : ℚ))
          ∧ (∃ mx, (summarize rows field).maxScore = some mx ∧
              mx ∈ collectNumericValues rows f ∧ ∀ v ∈ collectNumericValues rows f, v ≤ mx)
          ∧ (∃ mn, (summarize rows field).minScore = some mn ∧
              mn ∈ collectNumericValues rows f ∧ ∀ v ∈ collectNumericValues rows f, mn ≤ v))) := by
  refine ⟨?_, ?_, ?_⟩
  · match field with
    | none => rfl
    | some f =>
      rw [summarize]
      split
      · rfl
      · dsimp only
        split
        · rfl
        · rfl
  · intro h
    match field with
    | none => rfl
    | some f =>
      rcases h with h | h | h
      · rw [summarize, if_pos (Or.inl (by rw [h]; rfl))]
      · exact absurd h (Option.noConfusion)
      · have hf : f = "" := Option.some.inj h
        rw [summarize, if_pos (Or.inr hf)]
  · intro f hfield hf hrows
    subst hfield
    have hcond : ¬(rows.length = 0 ∨ f = "") := by
      intro hc
      rcases hc with hc | hc
      · exact hrows (List.length_eq_zero.mp hc)
      · exact hf hc
    constructor
    · intro hempty
      rw [summarize, if_neg hcond]
      dsimp only
      rw [if_pos hempty]
    · intro hne
      rw [summarize, if_neg hcond]
      dsimp only
      rw [if_neg hne]
      refine ⟨rfl, ⟨maxList (collectNumericValues rows f), rfl, maxList_mem hne,
        fun v hv => le_maxList hv⟩,
        ⟨minList (collectNumericValues rows f), rfl, minList_mem hne,
        fun v hv => minList_le hv⟩⟩

/-- C8 witness: on a two-row CGPA dataset the mean of the collected
values is reported as the average score. -/
theorem C8_summary_statistics_witness :
    (summarize exCgpaRows (some "CGPA")).avgScore =
      some ((collectNumericValues exCgpaRows "CGPA").sum /
        ((collectNumericValues exCgpaRows "CGPA").length : ℚ)) :=
  ((C8_summary_statistics exCgpaRows (some "CGPA")).2.2 "CGPA" rfl
    (by with_unfolding_all decide) (by with_unfolding_all decide)).2
    (by with_unfolding_all decide) |>.1

/-! Histogram lemmas. -/

theorem length_modifyAt :
    ∀ (l : List HistogramBin) (i : ℕ) (f : HistogramBin → HistogramBin),
      (modifyAt l i f).length = l.length := by
  intro l
  induction l with
  | nil => intro i f; rfl
  | cons x xs ih =>
    intro i f
    match i with
    | 0 => rfl
    | n + 1 => simp [modifyAt, ih n f]

theorem sumCounts_modifyAt_inc :
    ∀ (l : List HistogramBin) (i : ℕ), i < l.length →
      sumCounts (modifyAt l i (fun b => { b with count := b.count + 1 })) = sumCounts l + 1 := by
  intro l
  induction l with
  | nil => intro i h; exact absurd h (Nat.not_lt_zero i)
  | cons x xs ih =>
    intro i h
    match i with
    | 0 =>
      simp only [modifyAt, sumCounts, List.map_cons, List.sum_cons]
      omega
    | n + 1 =>
      have hn : n < xs.length := by simpa using h
      have := ih n hn
      simp only [modifyAt, sumCounts, List.map_cons, List.sum_cons] at this ⊢
      omega

/-- The histogram accumulation step preserves the number of bins. -/
theorem hist_foldl_length (mn mx : ℚ) (bins : ℕ) :
    ∀ (vs : List ℚ) (data : List HistogramBin),
      (vs.foldl (histStep mn mx bins) data).length = data.length := by
  intro vs
  induction vs with
  | nil => intro data; rfl
  | cons v vs ih =>
    intro data
    rw [List.foldl_cons, ih, histStep, length_modifyAt]

/-- Each value whose bin index is in range adds exactly one count. -/
theorem hist_foldl_sum (mn mx : ℚ) (bins : ℕ) :
    ∀ (vs : List ℚ) (data : List HistogramBin),
      (∀ v ∈ vs, binIndex mn mx bins v < data.length) →
      sumCounts (vs.foldl (histStep mn mx bins) data) = sumCounts data + vs.length := by
  intro vs
  induction vs with
  | nil => intro data _; rfl
  | cons v vs ih =>
    intro data h
    rw [List.foldl_cons]
    have hlen : (histStep mn mx bins data v).length = data.length := by
      rw [histStep, length_modifyAt]
    rw [ih _ (fun w hw => hlen ▸ h w (List.mem_cons_of_mem v hw))]
    rw [histStep, sumCounts_modifyAt_inc data _ (h v (List.mem_cons_self v vs))]
    simp [Nat.add_assoc, Nat.add_comm 1]

theorem length_initialBins (mn mx : ℚ) (bins : ℕ) : (initialBins mn mx bins).length = bins := by
  rw [initialBins, List.length_map, List.length_range]

theorem sumCounts_initialBins (mn mx : ℚ) (bins : ℕ) : sumCounts (initialBins mn mx bins) = 0 := by
  rw [sumCounts, initialBins, List.map_map]
  apply List.sum_eq_zero
  intro x hx
  rcases List.mem_map.mp hx with ⟨i, _, hi⟩
  exact hi ▸ rfl

theorem binIndexZ_bounds {mn mx v : ℚ} {bins : ℕ} (hlt : mn < mx) (h1 : mn ≤ v) (h2 : v ≤ mx)
    (hb : 1 ≤ bins) :
    0 ≤ binIndexZ mn mx bins v ∧ binIndexZ mn mx bins v < (bins : ℤ) := by
  have hpos : (0 : ℚ) < mx - mn := sub_pos.mpr hlt
  have hx0 : (0 : ℚ) ≤ (v - mn) / (mx - mn) := div_nonneg (sub_nonneg.mpr h1) (le_of_lt hpos)
  have hx1 : (v - mn) / (mx - mn) ≤ 1 := (div_le_one hpos).mpr (sub_le_sub_right h2 mn)
  have hfl0 : 0 ≤ rawBinIndex mn mx bins v := by
    rw [rawBinIndex]
    exact Int.floor_nonneg.mpr (mul_nonneg hx0 (Nat.cast_nonneg bins))
  have hflB : rawBinIndex mn mx bins v ≤ (bins : ℤ) := by
    rw [rawBinIndex]
    calc ⌊(v - mn) / (mx - mn) * (bins : ℚ)⌋
        ≤ ⌊((bins : ℕ) : ℚ)⌋ :=
          Int.floor_le_floor (mul_le_of_le_one_left (Nat.cast_nonneg bins) hx1)
      _ = (bins : ℤ) := Int.floor_natCast bins
  rw [binIndexZ]
  by_cases hc : (bins : ℤ) ≤ rawBinIndex mn mx bins v
  · rw [if_pos hc]
    have : ¬((bins : ℤ) - 1 < 0) := by omega
    rw [if_neg this]
    omega
  · rw [if_neg hc]
    have : ¬(rawBinIndex mn mx bins v < 0) := by omega
    rw [if_neg this]
    omega

theorem binIndex_lt {mn mx v : ℚ} {bins : ℕ} (hlt : mn < mx) (h1 : mn ≤ v) (h2 : v ≤ mx)
    (hb : 1 ≤ bins) : binIndex mn mx bins v < bins := by
  obtain ⟨hz0, hzB⟩ := binIndexZ_bounds hlt h1 h2 hb
  rw [binIndex]
  omega

/-- The maximum value computes raw index equal to the bin count and is
clamped down to the last bin. -/
theorem binIndex_max {mn mx : ℚ} {bins : ℕ} (hlt : mn < mx) (hb : 1 ≤ bins) :
    binIndex mn mx bins mx = bins - 1 := by
  have hne : mx - mn ≠ 0 := ne_of_gt (sub_pos.mpr hlt)
  have hraw : rawBinIndex mn mx bins mx = (bins : ℤ) := by
    rw [rawBinIndex, div_self hne, one_mul, Int.floor_natCast]
  rw [binIndex, binIndexZ, hraw]
  rw [if_pos (le_refl (bins : ℤ))]
  have : ¬((bins : ℤ) - 1 < 0) := by omega
  rw [if_neg this]
  omega

/-- A non-empty histogram means: the guards all passed, at least one
value, a genuine domain, and at least one bin. -/
theorem hist_nonempty_inv {rows : List Row} {field : String} {bins : ℕ}
    (h : buildHistogramData rows field bins ≠ []) :
    ¬(rows = [] ∨ field = "")
    ∧ collectNumericValues rows field ≠ []
    ∧ minList (collectNumericValues rows field) < maxList (collectNumericValues rows field)
    ∧ 1 ≤ bins := by
  rw [buildHistogramData] at h
  by_cases hg : rows = [] ∨ field = ""
  · rw [if_pos hg] at h; exact absurd rfl h
  · rw [if_neg hg] at h
    dsimp only at h
    by_cases hv : collectNumericValues rows field = []
    · rw [if_pos hv] at h; exact absurd rfl h
    · rw [if_neg hv] at h
      by_cases hmm : minList (collectNumericValues rows field) =
          maxList (collectNumericValues rows field)
      · rw [if_pos hmm] at h; exact absurd rfl h
      · rw [if_neg hmm] at h
        have hle : minList (collectNumericValues rows field) ≤
            maxList (collectNumericValues rows field) :=
          minList_le (maxList_mem hv)
        refine ⟨hg, hv, lt_of_le_of_ne hle hmm, ?_⟩
        have hlen := hist_foldl_length (minList (collectNumericValues rows field))
          (maxList (collectNumericValues rows field)) bins
          (collectNumericValues rows field)
          (initialBins (minList (collectNumericValues rows field))
            (maxList (collectNumericValues rows field)) bins)
        rw [length_initialBins] at hlen
        by_cases hbz : bins = 0
        · exfalso
          apply h
          apply List.eq_nil_of_length_eq_zero
          rw [hlen, hbz]
        · omega

/-- A non-empty histogram is exactly the increment fold over the
initial bins. -/
theorem hist_nonempty_eq_fold {rows : List Row} {field : String} {bins : ℕ}
    (h : buildHistogramData rows field bins ≠ []) :
    buildHistogramData rows field bins =
      (collectNumericValues rows field).foldl
        (histStep (minList (collectNumericValues rows field))
          (maxList (collectNumericValues rows field)) bins)
        (initialBins (minList (collectNumericValues rows field))
          (maxList (collectNumericValues rows field)) bins) := by
  obtain ⟨hg, hv, hlt, _⟩ := hist_nonempty_inv h
  rw [buildHistogramData, if_neg hg]
  dsimp only
  rw [if_neg hv, if_neg (ne_of_lt hlt)]

/-- C2 counterexample: a single finite value gives a degenerate domain,
an empty bin list and hence a count sum of zero, not one. -/
theorem C2_single_value_counterexample :
    collectNumericValues exSingle "A" = [5]
    ∧ buildHistogramData exSingle "A" 8 = []
    ∧ sumCounts (buildHistogramData exSingle "A" 8) ≠
        (collectNumericValues exSingle "A").length := by
  refine ⟨?_, ?_, ?_⟩ <;> with_unfolding_all decide

/-- C2 amended: whenever the histogram returns a non-empty bin list,
the sum of the per-bin counts equals the number of finite coerced
values of the field. -/
theorem C2_histogram_count_sum (rows : List Row) (field : String) (bins : ℕ)
    (h : buildHistogramData rows field bins ≠ []) :
    sumCounts (buildHistogramData rows field bins) =
      (collectNumericValues rows field).length := by
  obtain ⟨hg, hv, hlt, hb⟩ := hist_nonempty_inv h
  rw [hist_nonempty_eq_fold h]
  rw [hist_foldl_sum]
  · rw [sumCounts_initialBins, Nat.zero_add]
  · intro v hvm
    rw [length_initialBins]
    exact binIndex_lt hlt (minList_le hvm) (le_maxList hvm) hb

/-- C2 witness: on the two-value dataset the bin counts sum to the
number of finite values. -/
theorem C2_histogram_count_sum_witness :
    sumCounts (buildHistogramData exPair "A" 8) = (collectNumericValues exPair "A").length :=
  C2_histogram_count_sum exPair "A" 8 (by with_unfolding_all decide)

/-- C3: whenever the histogram returns a non-empty bin list, the bins
are produced by incrementing at the clamped floor index, this index is
always inside the bin range, and the maximum observed value lands in
the last bin. -/
theorem C3_max_in_last_bin (rows : List Row) (field : String) (bins : ℕ)
    (h : buildHistogramData rows field bins ≠ []) :
    buildHistogramData rows field bins =
      (collectNumericValues rows field).foldl
        (histStep (minList (collectNumericValues rows field))
          (maxList (collectNumericValues rows field)) bins)
        (initialBins (minList (collectNumericValues rows field))
          (maxList (collectNumericValues rows field)) bins)
    ∧ (∀ v ∈ collectNumericValues rows field,
        0 ≤ binIndexZ (minList (collectNumericValues rows field))
            (maxList (collectNumericValues rows field)) bins v
        ∧ binIndexZ (minList (collectNumericValues rows field))
            (maxList (collectNumericValues rows field)) bins v < (bins : ℤ)
        ∧ binIndex (minList (collectNumericValues rows field))
            (maxList (collectNumericValues rows field)) bins v < bins)
    ∧ maxList (collectNumericValues rows field) ∈ collectNumericValues rows field
    ∧ binIndex (minList (collectNumericValues rows field))
        (maxList (collectNumericValues rows field)) bins
        (maxList (collectNumericValues rows field)) = bins - 1 := by
  obtain ⟨hg, hv, hlt, hb⟩ := hist_nonempty_inv h
  refine ⟨hist_nonempty_eq_fold h, ?_, maxList_mem hv, binIndex_max hlt hb⟩
  intro v hvm
  obtain ⟨h0, hB⟩ := binIndexZ_bounds hlt (minList_le hvm) (le_maxList hvm) hb
  refine ⟨h0, hB, ?_⟩
  rw [binIndex]
  omega

/-- C3 witness: on the two-value dataset the maximum lands in bin 7 of
8. -/
theorem C3_max_in_last_bin_witness :
    binIndex (minList (collectNumericValues exPair "A"))
      (maxList (collectNumericValues exPair "A")) 8
      (maxList (collectNumericValues exPair "A")) = 8 - 1 :=
  (C3_max_in_last_bin exPair "A" 8 (by with_unfolding_all decide)).2.2.2

/-! Grouped-count lemmas. -/

/-- The row loop for one metric is the contribution fold over the
rounded values of that metric. -/
theorem gpa_inner_fold (m : String) :
    ∀ (rows : List Row) (acc : List GBin),
      rows.foldl (fun acc r =>
        match coerceNumOpt (rowGet r m) with
        | none => acc
        | some q => addVal acc m (round2 q)) acc =
      ((roundedVals rows m).map (fun v => (m, v))).foldl
        (fun acc p => addVal acc p.1 p.2) acc := by
  intro rows
  induction rows with
  | nil => intro acc; rfl
  | cons r rs ih =>
    intro acc
    cases hc : coerceNumOpt (rowGet r m) with
    | none =>
      have hrv : roundedVals (r :: rs) m = roundedVals rs m := by
        simp [roundedVals, List.filterMap_cons, hc]
      rw [List.foldl_cons]
      simp only [hc]
      rw [ih, hrv]
    | some q =>
      have hrv : roundedVals (r :: rs) m = round2 q :: roundedVals rs m := by
        simp [roundedVals, List.filterMap_cons, hc]
      rw [List.foldl_cons]
      simp only [hc]
      rw [ih, hrv, List.map_cons, List.foldl_cons]

/-- The nested metric and row loops perform the contribution fold in
metric-major order. -/
theorem gpa_outer_fold (rows : List Row) :
    ∀ (metrics : List String) (acc : List GBin),
      metrics.foldl (fun acc m =>
        rows.foldl (fun acc r =>
          match coerceNumOpt (rowGet r m) with
          | none => acc
          | some q => addVal acc m (round2 q)) acc) acc =
      (contribPairs rows metrics).foldl (fun acc p => addVal acc p.1 p.2) acc := by
  intro metrics
  induction metrics with
  | nil => intro acc; rfl
  | cons m ms ih =>
    intro acc
    have hcp : contribPairs rows (m :: ms) =
        (roundedVals rows m).map (fun v => (m, v)) ++ contribPairs rows ms := by
      simp only [contribPairs]
      rw [List.flatMap_cons]
    rw [List.foldl_cons]
    rw [gpa_inner_fold, ih, hcp, List.foldl_append]

/-- Adding a fresh bucket value appends a new bucket at the end. -/
theorem addVal_not_mem {m : String} {v : ℚ} :
    ∀ {entries : List GBin}, v ∉ entries.map GBin.key →
      addVal entries m v = entries ++ [⟨v, bumpProp [("gpa", v)] m⟩] := by
  intro entries
  induction entries with
  | nil => intro _; rfl
  | cons b bs ih =>
    intro h
    have hne : ¬b.key = v := by
      intro he
      apply h
      rw [List.map_cons, ← he]
      exact List.mem_cons_self _ _
    rw [addVal, if_neg hne, ih (fun hm => h (List.mem_cons_of_mem _ hm))]
    rfl

/-- Adding an existing bucket value bumps that entry's object in
place. -/
theorem addVal_mem {m : String} {v : ℚ} :
    ∀ {entries : List GBin}, v ∈ entries.map GBin.key →
      ∃ l1 e0 l2, entries = l1 ++ e0 :: l2 ∧ e0.key = v ∧ (∀ e2 ∈ l1, e2.key ≠ v) ∧
        addVal entries m v = l1 ++ { e0 with bin := bumpProp e0.bin m } :: l2 := by
  intro entries
  induction entries with
  | nil => intro h; simp at h
  | cons b bs ih =>
    intro h
    by_cases hb : b.key = v
    · refine ⟨[], b, bs, rfl, hb, ?_, ?_⟩
      · intro b2 hb2; exact absurd hb2 (List.not_mem_nil b2)
      · rw [addVal, if_pos hb]; rfl
    · have hv : v ∈ bs.map GBin.key := by
        rcases List.mem_map.mp h with ⟨b2, hb2, he⟩
        rcases List.mem_cons.mp hb2 with h2 | h2
        · exact absurd (h2 ▸ he) hb
        · exact he ▸ List.mem_map_of_mem GBin.key h2
      obtain ⟨l1, e0, l2, heq, hkey, hall, haddeq⟩ := ih hv
      refine ⟨b :: l1, e0, l2, by rw [heq]; rfl, hkey, ?_, ?_⟩
      · intro b2 hb2
        rcases List.mem_cons.mp hb2 with h2 | h2
        · exact h2 ▸ hb
        · exact hall b2 h2
      · rw [addVal, if_neg hb, haddeq]
        rfl

/-- Writing one property leaves every other property unchanged. -/
theorem getProp_setProp :
    ∀ (o : BinObj) (m : String) (x : ℚ) (m2 : String),
      getProp (setProp o m x) m2 = (if m2 = m then some x else getProp o m2) := by
  intro o
  induction o with
  | nil =>
    intro m x m2
    by_cases h : m2 = m
    · subst h; simp [setProp, getProp]
    · have h2 : ¬m = m2 := fun he => h he.symm
      simp [setProp, getProp, h, h2]
  | cons kc rest ih =>
    intro m x m2
    obtain ⟨k, c⟩ := kc
    by_cases hk : k = m
    · subst hk
      rw [setProp, if_pos rfl]
      by_cases h2 : m2 = k
      · subst h2
        simp [getProp]
      · have hk2 : ¬k = m2 := fun he => h2 he.symm
        simp [getProp, h2, hk2]
    · rw [setProp, if_neg hk]
      by_cases h2 : m2 = m
      · rw [if_pos h2]
        have hk2 : ¬k = m2 := fun he => hk (he.trans h2)
        simp only [getProp, if_neg hk2]
        rw [ih, if_pos h2]
      · rw [if_neg h2]
        by_cases hk2 : k = m2
        · simp only [getProp, if_pos hk2]
        · simp only [getProp, if_neg hk2]
          rw [ih, if_neg h2]

/-- The or-zero increment: the bumped property reads old-or-zero plus
one, every other property is unchanged. -/
theorem getProp_bumpProp (o : BinObj) (m m2 : String) :
    getProp (bumpProp o m) m2 =
      (if m2 = m then some ((getProp o m).getD 0 + 1) else getProp o m2) := by
  rw [bumpProp, getProp_setProp]

theorem pairCount_append_single (C : List (String × ℚ)) (m : String) (v : ℚ)
    (m2 : String) (v2 : ℚ) :
    pairCount (C ++ [(m, v)]) m2 v2 =
      pairCount C m2 v2 + (if m = m2 ∧ v = v2 then 1 else 0) := by
  rw [pairCount, pairCount, List.filter_append, List.length_append]
  congr 1
  by_cases h : m = m2 ∧ v = v2
  · simp [List.filter, h]
  · simp [List.filter, h]

theorem pairCount_eq_zero_iff {C : List (String × ℚ)} {m : String} {v : ℚ} :
    pairCount C m v = 0 ↔ (m, v) ∉ C := by
  rw [pairCount, List.length_eq_zero, List.filter_eq_nil_iff]
  constructor
  · intro hall hm
    have h2 := hall (m, v) hm
    simp at h2
  · intro hnm p hp hc
    simp only [decide_eq_true_eq] at hc
    obtain ⟨p1, p2⟩ := p
    obtain ⟨e1, e2⟩ := hc
    dsimp at e1 e2
    subst e1
    subst e2
    exact hnm hp

theorem groupInv_nil : GroupInv [] [] := by
  refine ⟨List.nodup_nil, ?_, ?_⟩
  · intro v
    simp
  · intro b hb
    exact absurd hb (List.not_mem_nil b)

/-- One contribution whose metric name is not the literal string gpa
preserves the bookkeeping invariant. -/
theorem groupInv_step {entries : List GBin} {C : List (String × ℚ)} (m : String) (v : ℚ)
    (hg : ¬m = "gpa") (h : GroupInv entries C) : GroupInv (addVal entries m v) (C ++ [(m, v)]) := by
  obtain ⟨hnd, hmem, hcnt⟩ := h
  have hgm : ¬("gpa" : String) = m := fun he => hg he.symm
  by_cases hv : v ∈ entries.map GBin.key
  · obtain ⟨l1, e0, l2, heq, hkey, hall, haddeq⟩ := addVal_mem (m := m) hv
    rw [haddeq]
    have hmap : (l1 ++ { e0 with bin := bumpProp e0.bin m } :: l2).map GBin.key
        = entries.map GBin.key := by
      rw [heq]
      simp [List.map_append]
    have hl2nd : e0.key ∉ l2.map GBin.key := by
      have h2 := hnd
      rw [heq, List.map_append, List.map_cons] at h2
      exact (List.nodup_cons.mp (h2.of_append_right)).1
    refine ⟨hmap ▸ hnd, ?_, ?_⟩
    · intro w
      rw [hmap]
      constructor
      · intro hw
        obtain ⟨m2, hm2⟩ := (hmem w).mp hw
        exact ⟨m2, List.mem_append_left _ hm2⟩
      · rintro ⟨m2, hm2⟩
        rcases List.mem_append.mp hm2 with h1 | h1
        · exact (hmem w).mpr ⟨m2, h1⟩
        · simp at h1
          exact h1.2 ▸ hv
    · intro e he
      rcases List.mem_append.mp he with h1 | h1
      · have hbne : e.key ≠ v := hall e h1
        have hbold : e ∈ entries := by rw [heq]; exact List.mem_append_left _ h1
        refine ⟨(hcnt e hbold).1, ?_⟩
        intro m2 hm2g
        have hcond2 : ¬(m = m2 ∧ v = e.key) := fun hc => hbne hc.2.symm
        rw [pairCount_append_single, if_neg hcond2, Nat.add_zero]
        exact (hcnt e hbold).2 m2 hm2g
      · rcases List.mem_cons.mp h1 with h2 | h2
        · subst h2
          have hb0mem : e0 ∈ entries := by
            rw [heq]
            exact List.mem_append_right _ (List.mem_cons_self _ _)
          constructor
          · show getProp (bumpProp e0.bin m) "gpa" = some e0.key
            rw [getProp_bumpProp, if_neg hgm]
            exact (hcnt e0 hb0mem).1
          · intro m2 hm2g
            show getProp (bumpProp e0.bin m) m2 =
              (if pairCount (C ++ [(m, v)]) m2 e0.key = 0 then none
               else some ((pairCount (C ++ [(m, v)]) m2 e0.key : ℚ)))
            rw [getProp_bumpProp, hkey, pairCount_append_single]
            by_cases hm2 : m2 = m
            · have holdm := (hcnt e0 hb0mem).2 m hg
              rw [hkey] at holdm
              by_cases hpc : pairCount C m v = 0
              · simp [hm2, holdm, hpc]
              · simp [hm2, holdm, hpc]
            · have hmne : ¬(m = m2 ∧ v = v) := fun hc2 => hm2 hc2.1.symm
              rw [if_neg hm2, if_neg hmne, Nat.add_zero]
              have hold2 := (hcnt e0 hb0mem).2 m2 hm2g
              rw [hkey] at hold2
              exact hold2
        · have hbin2 : e ∈ entries := by
            rw [heq]
            exact List.mem_append_right _ (List.mem_cons_of_mem e0 h2)
          have hbne : e.key ≠ v := by
            intro he2
            apply hl2nd
            rw [hkey, ← he2]
            exact List.mem_map_of_mem GBin.key h2
          refine ⟨(hcnt e hbin2).1, ?_⟩
          intro m2 hm2g
          have hcond : ¬(m = m2 ∧ v = e.key) := fun hc => hbne hc.2.symm
          rw [pairCount_append_single, if_neg hcond, Nat.add_zero]
          exact (hcnt e hbin2).2 m2 hm2g
  · rw [addVal_not_mem hv]
    have hCv : ∀ m2 : String, (m2, v) ∉ C := by
      intro m2 hm2
      exact hv ((hmem v).mpr ⟨m2, hm2⟩)
    refine ⟨?_, ?_, ?_⟩
    · rw [List.map_append]
      refine List.Nodup.append hnd (List.nodup_singleton v) ?_
      intro a ha hb
      simp at hb
      exact hv (hb ▸ ha)
    · intro w
      rw [List.map_append]
      constructor
      · intro hw
        rcases List.mem_append.mp hw with h1 | h1
        · obtain ⟨m2, hm2⟩ := (hmem w).mp h1
          exact ⟨m2, List.mem_append_left _ hm2⟩
        · simp at h1
          exact ⟨m, List.mem_append_right _ (by simp [h1])⟩
      · rintro ⟨m2, hm2⟩
        rcases List.mem_append.mp hm2 with h1 | h1
        · exact List.mem_append_left _ ((hmem w).mpr ⟨m2, h1⟩)
        · simp at h1
          apply List.mem_append_right
          simp [h1.2]
    · intro e he
      rcases List.mem_append.mp he with h1 | h1
      · have hbne : e.key ≠ v := fun he2 => hv (he2 ▸ List.mem_map_of_mem GBin.key h1)
        refine ⟨(hcnt e h1).1, ?_⟩
        intro m2 hm2g
        have hcond : ¬(m = m2 ∧ v = e.key) := fun hc => hbne hc.2.symm
        rw [pairCount_append_single, if_neg hcond, Nat.add_zero]
        exact (hcnt e h1).2 m2 hm2g
      · simp at h1
        subst h1
        constructor
        · show getProp (bumpProp [("gpa", v)] m) "gpa" = some v
          rw [getProp_bumpProp, if_neg hgm]
          simp [getProp]
        · intro m2 hm2g
          show getProp (bumpProp [("gpa", v)] m) m2 =
            (if pairCount (C ++ [(m, v)]) m2 v = 0 then none
             else some ((pairCount (C ++ [(m, v)]) m2 v : ℚ)))
          rw [getProp_bumpProp, pairCount_append_single]
          have hc0 : pairCount C m2 v = 0 := pairCount_eq_zero_iff.mpr (hCv m2)
          by_cases hm2 : m2 = m
          · subst hm2
            simp [getProp, hgm, hc0]
          · have hmne : ¬(m = m2 ∧ v = v) := fun hc2 => hm2 hc2.1.symm
            have hgm2 : ¬("gpa" : String) = m2 := fun he2 => hm2g he2.symm
            rw [if_neg hm2, if_neg hmne, Nat.add_zero, hc0]
            simp [getProp, hgm2]

/-- The bookkeeping invariant holds after folding any contribution
list that avoids the gpa name into the empty bucket map. -/
theorem groupInv_fold :
    ∀ C : List (String × ℚ), (∀ p ∈ C, ¬p.1 = "gpa") →
      GroupInv (C.foldl (fun acc p => addVal acc p.1 p.2) []) C := by
  intro C
  induction C using List.reverseRecOn with
  | nil => intro _; exact groupInv_nil
  | append_singleton l p ih =>
    intro hsafe
    obtain ⟨m, v⟩ := p
    rw [List.foldl_append]
    refine groupInv_step m v ?_ (ih ?_)
    · exact hsafe (m, v) (List.mem_append_right l (by simp))
    · intro p2 hp2
      exact hsafe p2 (List.mem_append_left _ hp2)

theorem insertBin_perm (b : BinObj) : ∀ l : List BinObj, (insertBin b l).Perm (b :: l) := by
  intro l
  induction l with
  | nil => exact List.Perm.refl _
  | cons c cs ih =>
    rw [insertBin]
    by_cases h : gpaOf b ≤ gpaOf c
    · rw [if_pos h]
    · rw [if_neg h]
      exact (List.Perm.cons c ih).trans (List.Perm.swap b c cs)

theorem sortBins_perm : ∀ l : List BinObj, (sortBins l).Perm l := by
  intro l
  induction l with
  | nil => exact List.Perm.refl _
  | cons b bs ih =>
    rw [sortBins]
    exact (insertBin_perm b (sortBins bs)).trans (ih.cons b)

theorem insertBin_sorted {b : BinObj} :
    ∀ {l : List BinObj}, List.Pairwise (fun x y : BinObj => gpaOf x ≤ gpaOf y) l →
      List.Pairwise (fun x y : BinObj => gpaOf x ≤ gpaOf y) (insertBin b l) := by
  intro l
  induction l with
  | nil => intro _; exact List.pairwise_singleton _ b
  | cons c cs ih =>
    intro h
    obtain ⟨hc, hcs⟩ := List.pairwise_cons.mp h
    rw [insertBin]
    by_cases hle : gpaOf b ≤ gpaOf c
    · rw [if_pos hle]
      refine List.pairwise_cons.mpr ⟨?_, h⟩
      intro y hy
      rcases List.mem_cons.mp hy with he | hm
      · exact he ▸ hle
      · exact le_trans hle (hc y hm)
    · rw [if_neg hle]
      refine List.pairwise_cons.mpr ⟨?_, ih hcs⟩
      intro y hy
      have hy2 : y ∈ b :: cs := (insertBin_perm b cs).mem_iff.mp hy
      rcases List.mem_cons.mp hy2 with he | hm
      · subst he
        exact le_of_lt (lt_of_not_le hle)
      · exact hc y hm

theorem sortBins_sorted : ∀ l : List BinObj,
    List.Pairwise (fun x y : BinObj => gpaOf x ≤ gpaOf y) (sortBins l) := by
  intro l
  induction l with
  | nil => exact List.Pairwise.nil
  | cons b bs ih =>
    rw [sortBins]
    exact insertBin_sorted ih

theorem mem_contribPairs {rows : List Row} {metrics : List String} {m : String} {v : ℚ} :
    (m, v) ∈ contribPairs rows metrics ↔ m ∈ metrics ∧ v ∈ roundedVals rows m := by
  rw [contribPairs, List.mem_flatMap]
  constructor
  · rintro ⟨m2, hm2, hmem⟩
    rcases List.mem_map.mp hmem with ⟨v2, hv2, he⟩
    injection he with e1 e2
    subst e1
    subst e2
    exact ⟨hm2, hv2⟩
  · rintro ⟨hm, hv⟩
    exact ⟨m, hm, List.mem_map_of_mem _ hv⟩

theorem countQ_pos_iff {l : List ℚ} {v : ℚ} : 1 ≤ countQ l v ↔ v ∈ l := by
  rw [countQ]
  constructor
  · intro h
    have hne : l.filter (fun x => x = v) ≠ [] := by
      intro he
      rw [he] at h
      simp at h
    obtain ⟨x, hx⟩ := List.exists_mem_of_ne_nil _ hne
    have h2 := List.mem_filter.mp hx
    have hxv : x = v := by simpa using h2.2
    exact hxv ▸ h2.1
  · intro h
    have h2 : v ∈ l.filter (fun x => x = v) := List.mem_filter.mpr ⟨h, by simp⟩
    exact List.length_pos.mpr (List.ne_nil_of_mem h2)

theorem pairCount_pos_iff {C : List (String × ℚ)} {m : String} {v : ℚ} :
    1 ≤ pairCount C m v ↔ (m, v) ∈ C := by
  constructor
  · intro h
    by_contra hn
    have h0 := pairCount_eq_zero_iff.mpr hn
    omega
  · intro h
    have h0 : pairCount C m v ≠ 0 := fun he => (pairCount_eq_zero_iff.mp he) h
    omega

/-- With non-empty inputs, the grouped-count view is the sorted fold of
the contribution list. -/
theorem buildGpa_eq_sorted_fold {rows : List Row} {metrics : List String}
    (hr : rows ≠ []) (hm : metrics ≠ []) :
    buildGpaCountData rows metrics =
      sortBins (((contribPairs rows metrics).foldl
        (fun acc p => addVal acc p.1 p.2) []).map (fun e => e.bin)) := by
  have hg : ¬(rows = [] ∨ metrics = []) := by simp [hr, hm]
  rw [buildGpaCountData, if_neg hg, gpa_outer_fold]

/-- C7 counterexample: a metric key that is literally the string gpa
shares its property with the bucket value, so on two rows both
contributing rounded value 3.5 the single emitted row has bucket
property 5.5 (3.5 incremented twice) and no row carries the actual
bucket value 3.5 or any count. -/
theorem C7_gpa_metric_counterexample :
    roundedVals exGpaRows "gpa" = [7 / 2, 7 / 2]
    ∧ buildGpaCountData exGpaRows ["gpa"] = [[("gpa", 11 / 2)]]
    ∧ (buildGpaCountData exGpaRows ["gpa"]).map gpaOf = [11 / 2]
    ∧ ∀ o ∈ buildGpaCountData exGpaRows ["gpa"], ¬gpaOf o = 7 / 2 := by
  refine ⟨?_, ?_, ?_, ?_⟩ <;> with_unfolding_all decide

/-- C7 amended: for non-empty inputs and metric keys that are neither
the literal string gpa nor Object.prototype property names, the
grouped-count rows have pairwise distinct bucket values, are sorted
ascending, contain exactly the bucket values contributed by some
metric, and carry a per-metric property exactly when that metric has a
contributing row in the bucket, the property being the number of
contributions of that pair. -/
theorem C7_grouped_counts (rows : List Row) (metrics : List String)
    (hr : rows ≠ []) (hm : metrics ≠ [])
    (hsafe : ∀ m2 ∈ metrics, ¬m2 = "gpa" ∧ m2 ∉ objectProtoKeys) :
    ((buildGpaCountData rows metrics).map gpaOf).Nodup
    ∧ List.Pairwise (fun a b : BinObj => gpaOf a < gpaOf b) (buildGpaCountData rows metrics)
    ∧ (∀ v : ℚ, v ∈ (buildGpaCountData rows metrics).map gpaOf ↔
        ∃ m2 ∈ metrics, 1 ≤ metricRowCount rows m2 v)
    ∧ (∀ o ∈ buildGpaCountData rows metrics, ∀ m2 : String, ¬m2 = "gpa" →
        getProp o m2 =
          (if pairCount (contribPairs rows metrics) m2 (gpaOf o) = 0 then none
           else some ((pairCount (contribPairs rows metrics) m2 (gpaOf o) : ℚ))))
    ∧ (∀ o ∈ buildGpaCountData rows metrics, ∀ m2 : String, ¬m2 = "gpa" →
        (getProp o m2 ≠ none ↔ m2 ∈ metrics ∧ 1 ≤ metricRowCount rows m2 (gpaOf o))) := by
  have hbe := buildGpa_eq_sorted_fold hr hm
  have hCsafe : ∀ p ∈ contribPairs rows metrics, ¬p.1 = "gpa" := by
    intro p hp
    obtain ⟨p1, p2⟩ := p
    exact (hsafe p1 (mem_contribPairs.mp hp).1).1
  obtain ⟨hnd, hmem, hcnt⟩ := groupInv_fold (contribPairs rows metrics) hCsafe
  have hperm : (buildGpaCountData rows metrics).Perm
      (((contribPairs rows metrics).foldl
        (fun acc p => addVal acc p.1 p.2) []).map (fun e => e.bin)) := by
    rw [hbe]
    exact sortBins_perm _
  have hgmap : ((((contribPairs rows metrics).foldl
        (fun acc p => addVal acc p.1 p.2) []).map (fun e => e.bin)).map gpaOf)
      = ((contribPairs rows metrics).foldl
        (fun acc p => addVal acc p.1 p.2) []).map GBin.key := by
    rw [List.map_map]
    apply List.map_congr_left
    intro e he
    show gpaOf e.bin = e.key
    rw [gpaOf, (hcnt e he).1]
    rfl
  have hmapperm : ((buildGpaCountData rows metrics).map gpaOf).Perm
      (((contribPairs rows metrics).foldl
        (fun acc p => addVal acc p.1 p.2) []).map GBin.key) :=
    hgmap ▸ hperm.map gpaOf
  have hnd2 : ((buildGpaCountData rows metrics).map gpaOf).Nodup :=
    hmapperm.nodup_iff.mpr hnd
  refine ⟨hnd2, ?_, ?_, ?_, ?_⟩
  · have hsorted : List.Pairwise (fun x y : BinObj => gpaOf x ≤ gpaOf y)
        (buildGpaCountData rows metrics) := by
      rw [hbe]
      exact sortBins_sorted _
    have hne : List.Pairwise (fun x y : BinObj => gpaOf x ≠ gpaOf y)
        (buildGpaCountData rows metrics) := List.pairwise_map.mp hnd2
    exact (hsorted.and hne).imp (fun h => lt_of_le_of_ne h.1 h.2)
  · intro v
    constructor
    · intro hv
      obtain ⟨m2, hm2⟩ := (hmem v).mp (hmapperm.mem_iff.mp hv)
      obtain ⟨hmm, hvv⟩ := mem_contribPairs.mp hm2
      refine ⟨m2, hmm, ?_⟩
      rw [metricRowCount]
      exact countQ_pos_iff.mpr hvv
    · rintro ⟨m2, hmm, hcount⟩
      rw [metricRowCount] at hcount
      have hvv := countQ_pos_iff.mp hcount
      exact hmapperm.mem_iff.mpr ((hmem v).mpr ⟨m2, mem_contribPairs.mpr ⟨hmm, hvv⟩⟩)
  · intro o ho m2 hm2g
    obtain ⟨e, he, hbin⟩ := List.mem_map.mp (hperm.mem_iff.mp ho)
    have hgo : gpaOf e.bin = e.key := by
      rw [gpaOf, (hcnt e he).1]
      rfl
    rw [← hbin, hgo]
    exact (hcnt e he).2 m2 hm2g
  · intro o ho m2 hm2g
    obtain ⟨e, he, hbin⟩ := List.mem_map.mp (hperm.mem_iff.mp ho)
    have hgo : gpaOf e.bin = e.key := by
      rw [gpaOf, (hcnt e he).1]
      rfl
    rw [← hbin, hgo]
    rw [(hcnt e he).2 m2 hm2g]
    constructor
    · intro hne2
      by_cases hpc : pairCount (contribPairs rows metrics) m2 e.key = 0
      · rw [if_pos hpc] at hne2
        exact absurd rfl hne2
      · have hmemp : (m2, e.key) ∈ contribPairs rows metrics :=
          pairCount_pos_iff.mp (by omega)
        obtain ⟨h1, h2⟩ := mem_contribPairs.mp hmemp
        refine ⟨h1, ?_⟩
        rw [metricRowCount]
        exact countQ_pos_iff.mpr h2
    · rintro ⟨h1, h2⟩
      rw [metricRowCount] at h2
      have hpc : 1 ≤ pairCount (contribPairs rows metrics) m2 e.key :=
        pairCount_pos_iff.mpr (mem_contribPairs.mpr ⟨h1, countQ_pos_iff.mp h2⟩)
      rw [if_neg (by omega)]
      simp

/-- C7 witness: on the two-row CGPA dataset, with the collision-free
metric key CGPA, the grouped rows are sorted strictly ascending by
bucket value. -/
theorem C7_grouped_counts_witness :
    List.Pairwise (fun a b : BinObj => gpaOf a < gpaOf b)
      (buildGpaCountData exCgpaRows ["CGPA"]) :=
  (C7_grouped_counts exCgpaRows ["CGPA"] (by with_unfolding_all decide)
    (by with_unfolding_all decide) (by with_unfolding_all decide)).2.1

end ResultApp

